import Mathlib

/-!
Shallow embedding of the secure-aggregation core of the `privacy-utils`
repository (packages/secure-agg: `secrets.ts`, `masking.ts`, the
`SecureAggregationClient`), together with theorems settling the frozen
claims about it.

Modelling conventions:
* `Uint8Array` values are `List ℕ` whose stored entries are reduced mod 256
  (every write into a typed array truncates); reads out of range yield the
  JS `?? 0` default used by the source.
* `Float64Array` vectors are `List ℚ`: the source's element-wise `+`/`-`
  are modelled exactly; IEEE-754 rounding is outside the model.
* JS `number` remainder `%` (sign of the dividend) is `Int.tmod`; `x >>> 0`
  on a non-negative value is `% 2^32`; `& 0xFF` on a non-negative value is
  `% 256`.
* External crypto (`deriveKey`, i.e. WebCrypto PBKDF2, and `randomBytes`)
  and the JS runtime's `Math.sin` are environment parameters of the
  embedding: `dk`, `rndS`/`rndC`/`rnd`, and `sinF`.
* JS `Map`s are association lists (JS map iteration is insertion-ordered),
  or, where only lookups matter, functions with a `[]` default.
* Thrown exceptions are `Except.error` carrying the message string.
-/

/-- JS remainder operator `%` on numbers: the result takes the sign of the
dividend, matching `Int.tmod` (T-division remainder). -/
def jsMod (a b : ℤ) : ℤ := Int.tmod a b

instance {ε α : Type} [DecidableEq ε] [DecidableEq α] : DecidableEq (Except ε α) :=
  fun x y =>
    match x, y with
    | Except.ok a, Except.ok b =>
      if h : a = b then isTrue (by simp [h]) else isFalse (by simp [h])
    | Except.error e, Except.error f =>
      if h : e = f then isTrue (by simp [h]) else isFalse (by simp [h])
    | Except.ok _, Except.error _ => isFalse (by simp)
    | Except.error _, Except.ok _ => isFalse (by simp)

/-- Read index `k` of a `Uint8Array` modelled as a `List ℕ`: out-of-range
reads give the `?? 0` default of the source, and stored values are bytes
(`% 256`, the truncation every `Uint8Array` write performs). -/
def byteGet (l : List ℕ) (k : ℕ) : ℕ := l.getD k 0 % 256

/-- UTF-16 code units of a JS string (the ids used by the protocol are
ASCII, where code units and code points agree). -/
def charCodes (s : String) : List ℕ := s.data.map Char.toNat

/-- JS `s.charCodeAt(i)` for in-range `i`.  (JS returns `NaN` out of range;
the claims only evaluate this on in-range indices of nonempty ids.) -/
def charCodeAt (s : String) (i : ℕ) : ℕ := (charCodes s).getD i 0

/-! ## Secret sharing (`packages/secure-agg/src/secrets.ts`) -/

/-- A `SecretShare` record (`types.ts`): owning id, 1-based share index,
share payload bytes, and the reconstruction threshold. -/
structure SecretShare where
  clientId : String
  shareIndex : ℕ
  shareData : List ℕ
  threshold : ℕ
deriving DecidableEq, Repr, Inhabited

/-- `generatePolynomial(secret, threshold)`: the secret is coefficient
`a0`; coefficients `a1 … a_{t-1}` come from `randomBytes` — abstracted as
the supply `rnd` (the source draws `secret.length` bytes per call). -/
def generatePolynomial (secret : List ℕ) (threshold : ℕ) (rnd : ℕ → List ℕ) :
    List (List ℕ) :=
  secret :: (List.range (threshold - 1)).map (fun j => rnd (j + 1))

/-- The source's `x^i` computation: starting from `x`, multiply by `x`
`i - 1` times, keeping each product as a 32-bit value via `>>> 0`. -/
def xPow (x : ℕ) (i : ℕ) : ℕ :=
  (List.range (i - 1)).foldl (fun acc _ => acc * x % 4294967296) x

/-- Body of `evaluatePolynomial` for a nonempty coefficient list
`a0 :: rest`: `result[k]` starts at `a0[k]` and accumulates
`coeff_i[k] * (x^i & 0xFF)`, truncated `& 0xFF` at every step. -/
def evalPolyBody (a0 : List ℕ) (rest : List (List ℕ)) (x : ℕ) : List ℕ :=
  (List.range a0.length).map (fun k =>
    (List.range rest.length).foldl
      (fun r i => (r + byteGet (rest.getD i []) k * (xPow x (i + 1) % 256)) % 256)
      (byteGet a0 k))

/-- `evaluatePolynomial(coefficients, x)`: throws on an empty coefficient
array, otherwise evaluates the polynomial byte-wise mod 256. -/
def evaluatePolynomial (coefficients : List (List ℕ)) (x : ℕ) :
    Except String (List ℕ) :=
  match coefficients with
  | [] => Except.error "Coefficients array cannot be empty"
  | a0 :: rest => Except.ok (evalPolyBody a0 rest x)

/-- Rendered id `share_<k>` attached to the `k`-th produced share. -/
def shareClientId (k : ℕ) : String := "share_" ++ toString k

/-- `splitSecret(secret, totalShares, threshold)`: validates
`2 ≤ threshold ≤ totalShares` (throwing otherwise), then evaluates the
polynomial at `x = 1 … totalShares`.  The coefficient list produced by
`generatePolynomial` is `secret :: …`, hence nonempty, so the
`evaluatePolynomial` throw never fires inside the loop; the embedding
matches on it once (the branch is unreachable). -/
def splitSecret (secret : List ℕ) (totalShares threshold : ℕ)
    (rnd : ℕ → List ℕ) : Except String (List SecretShare) :=
  if threshold > totalShares then
    Except.error "Threshold cannot be greater than total shares"
  else if threshold < 2 then
    Except.error "Threshold must be at least 2"
  else
    match generatePolynomial secret threshold rnd with
    | [] => Except.error "Coefficients array cannot be empty"
    | a0 :: rest =>
      Except.ok ((List.range totalShares).map (fun i =>
        { clientId := shareClientId (i + 1)
          shareIndex := i + 1
          shareData := evalPolyBody a0 rest (i + 1)
          threshold := threshold }))

/-- Loop of the source's `modInverse` extended-Euclid.  JS semantics when
the gcd is not 1: `m` reaches 0 while `a > 1`, the next iteration divides
by zero (`q = Infinity`, `m = NaN`), sets `a = 0` and `x` to the previous
`y`, and the loop exits — so the function returns the previous `y`; the
`m = 0` branch below returns exactly that value.  The loop is given as
structural recursion on a fuel count so that it computes by kernel
reduction; `m` strictly decreases at every iteration, so fuel `m + 1` is
enough (`modInvGo_fuel` below shows the result is fuel-independent once
the fuel exceeds `m`). -/
def modInvGo (fuel : ℕ) (a m : ℕ) (x y : ℤ) : ℤ :=
  match fuel with
  | 0 => x
  | fuel + 1 =>
    if a ≤ 1 then x
    else if m = 0 then y
    else modInvGo fuel m (a % m) y (x - (a / m : ℕ) * y)

/-- The fuel in `modInvGo` is an artefact of the embedding: any fuel
strictly larger than `m` gives the same value. -/
theorem modInvGo_fuel (m : ℕ) : ∀ f f' a x y, m < f → m < f' →
    modInvGo f a m x y = modInvGo f' a m x y := by
  induction m using Nat.strong_induction_on with
  | _ m ih =>
    intro f f' a x y hf hf'
    match f, f' with
    | f + 1, f' + 1 =>
      simp only [modInvGo]
      split
      · rfl
      · split
        · rfl
        · rename_i hm
          have hlt : a % m < m := Nat.mod_lt _ (Nat.pos_of_ne_zero hm)
          exact ih (a % m) hlt f f' m _ _ (by omega) (by omega)

/-- `modInverse(a, m)`: returns 0 when `m = 1`; for `a ≤ 1` the while loop
never runs and the function returns `x = 1` (so negative and non-coprime
arguments silently return garbage — the defect behind the broken
reconstruction); otherwise runs extended Euclid and normalises a negative
result by adding `m` once. -/
def modInverse (a : ℤ) (m : ℕ) : ℤ :=
  if m = 1 then 0
  else
    let x := modInvGo (m + 1) a.toNat m 1 0
    if x < 0 then x + m else x

/-- Lagrange basis accumulator for share `j` of `selected`:
`basis = (basis * xk * modInverse(xk - xj, 256)) % 256` over all `k ≠ j`. -/
def lagBasis (selected : List SecretShare) (j : ℕ) : ℤ :=
  (List.range selected.length).foldl
    (fun basis k =>
      if k = j then basis
      else
        jsMod (basis * ((selected.getD k default).shareIndex : ℤ) *
          modInverse (((selected.getD k default).shareIndex : ℤ)
            - ((selected.getD j default).shareIndex : ℤ)) 256) 256)
    1

/-- Byte `i` of the interpolated value:
`value = (value + shareData[i] * basis_j) % 256` over the selected shares
(an out-of-range `shareData[i]` is skipped by the source, which is the
same as adding `byteGet … = 0`). -/
def lagValue (selected : List SecretShare) (i : ℕ) : ℤ :=
  (List.range selected.length).foldl
    (fun value j =>
      jsMod (value + (byteGet (selected.getD j default).shareData i : ℤ)
        * lagBasis selected j) 256)
    0

/-- `reconstructSecret(shares)`: `null` on an empty list or when fewer
shares are supplied than the threshold encoded in the *first* share;
otherwise interpolates from the first `threshold` shares only.  The final
store into the `Uint8Array` result truncates to an unsigned byte
(`Int.emod _ 256`). -/
def reconstructSecret (shares : List SecretShare) : Option (List ℕ) :=
  match shares with
  | [] => none
  | firstShare :: _ =>
    if shares.length < firstShare.threshold then none
    else
      match shares.take firstShare.threshold with
      | [] => none
      | firstSel :: restSel =>
        some ((List.range firstSel.shareData.length).map
          (fun i => (Int.emod (lagValue (firstSel :: restSel) i) 256).toNat))

/-- Coefficient supply producing the zero byte string: a possible output
of `randomBytes`, used to evaluate the scheme at concrete instances. -/
def rnd0 : ℕ → List ℕ := fun _ => [0]

/-! ## Pairwise masking (`packages/secure-agg/src/masking.ts`) -/

/-- Inner loop of `generatePairwiseMask`: `count` remaining entries,
current index `i`, current LCG state `s`.  Each entry is
`Math.sin(seedValue + i + peerCode) * 1000` (`sinF` abstracts the
runtime's `Math.sin`), and the state advances by the LCG
`s*1103515245 + 12345 (mod 2^31)`.  `peerCode` is
`peerId.charCodeAt(i % peerId.length)`. -/
def maskLoop (sinF : ℤ → ℚ) (peerCodes : List ℕ) :
    ℕ → ℕ → ℕ → List ℚ
  | 0, _, _ => []
  | count + 1, i, s =>
    sinF ((s + i + peerCodes.getD (i % peerCodes.length) 0 : ℕ) : ℤ) * 1000 ::
      maskLoop sinF peerCodes count (i + 1) ((s * 1103515245 + 12345) % 2147483648)

/-- `generatePairwiseMask(vector, sharedSecret, roundId, peerId)`: the
vector is only read for its length.  `deriveKey` (WebCrypto PBKDF2,
32-byte output) is the environment parameter `dk`; the derived bytes are
summed, `roundId.charCodeAt(0)` is added, and the result seeds the LCG
driving the sine expansion.  The ids are strings in every call site
(`SecureAggClientId = string`), so only the string branch of the
`typeof peerId` test is modelled. -/
def generatePairwiseMask (sinF : ℤ → ℚ) (dk : List ℕ → List ℕ)
    (vectorLength : ℕ) (sharedSecret : List ℕ) (roundId peerId : String) :
    List ℚ :=
  let maskSeed := (dk sharedSecret).map (fun b => b % 256)
  let seedValue := (maskSeed.foldl (fun acc b => acc + b) 0 + charCodeAt roundId 0)
    % 2147483648
  maskLoop sinF (charCodes peerId) vectorLength 0 seedValue

/-- `applyMask(vector, mask)`: throws on a length mismatch, otherwise
returns the fresh element-wise sum `vector + mask`. -/
def applyMask (vector mask : List ℚ) : Except String (List ℚ) :=
  if vector.length ≠ mask.length then
    Except.error "Vector and mask must have the same length"
  else
    Except.ok (List.zipWith (fun a b => a + b) vector mask)

/-- `removeMask(vector, mask)`: throws on a length mismatch, otherwise
returns the fresh element-wise difference `vector - mask`. -/
def removeMask (vector mask : List ℚ) : Except String (List ℚ) :=
  if vector.length ≠ mask.length then
    Except.error "Vector and mask must have the same length"
  else
    Except.ok (List.zipWith (fun a b => a - b) vector mask)

/-- `generateAllMasks(vector, sharedSecrets, roundId, clientId)`: one mask
per entry of the shared-secret map whose key differs from `clientId`
(JS `Map` iteration is insertion-ordered, hence the association list). -/
def generateAllMasks (sinF : ℤ → ℚ) (dk : List ℕ → List ℕ)
    (vectorLength : ℕ) (sharedSecrets : List (String × List ℕ))
    (roundId clientId : String) : List (String × List ℚ) :=
  sharedSecrets.filterMap (fun p =>
    if p.1 ≠ clientId then
      some (p.1, generatePairwiseMask sinF dk vectorLength p.2 roundId p.1)
    else none)

/-- `applyAllMasks(vector, masks)`: folds `applyMask` over the mask map's
values, starting from a copy of the vector. -/
def applyAllMasks (vector : List ℚ) (masks : List (String × List ℚ)) :
    Except String (List ℚ) :=
  masks.foldlM (fun result pm => applyMask result pm.2) vector

/-- `addVectors(a, b)`: element-wise sum, throwing on length mismatch. -/
def addVectors (a b : List ℚ) : Except String (List ℚ) :=
  if a.length ≠ b.length then
    Except.error "Vectors must have the same length"
  else
    Except.ok (List.zipWith (fun x y => x + y) a b)

/-- `aggregateVectors(vectors)`: throws on an empty list, otherwise folds
`addVectors` from the first vector.  (The source's `undefined`-element
checks cannot fire on a well-typed list.) -/
def aggregateVectors (vectors : List (List ℚ)) : Except String (List ℚ) :=
  match vectors with
  | [] => Except.error "Cannot aggregate empty vector list"
  | first :: rest => rest.foldlM (fun acc v => addVectors acc v) first

/-! ## Client-side protocol (`SecureAggregationClient`, `distributeShares`) -/

/-- The `ProtocolPhase` enumeration of `types.ts`. -/
inductive ProtocolPhase where
  | setup
  | key_exchange
  | masking
  | submission
  | recovery
  | aggregation
  | complete
deriving DecidableEq, Repr

/-- `ClientState` of `types.ts`; the two `Map`s are association lists. -/
structure ClientState where
  clientId : String
  phase : ProtocolPhase
  roundId : String
  peers : List String
  sharedSecrets : List (String × List ℕ)
  maskSeeds : List (String × List ℕ)
  submitted : Bool
deriving DecidableEq, Repr

/-- The `MaskedVector` payload built by `submitVector` (the optional
`proof` field is never set by the source). -/
structure MaskedVectorMsg where
  clientId : String
  roundId : String
  vector : List ℚ
  maskSeed : List ℕ
deriving DecidableEq, Repr

/-- The wire messages `submitVector` emits (timestamps omitted). -/
inductive ClientMsg where
  | secretShare (clientId : String) (roundId : String) (shares : List SecretShare)
  | submitVector (clientId : String) (roundId : String) (maskedVector : MaskedVectorMsg)
deriving DecidableEq, Repr

/-- `distributions.get(k) || []` on the association-list map. -/
def mapGetD (m : List (String × List SecretShare)) (k : String) :
    List SecretShare :=
  match m.find? (fun p => p.1 == k) with
  | some p => p.2
  | none => []

/-- `distributions.set(k, v)`: JS `Map.set` keeps the original insertion
position of an existing key and appends a new one. -/
def mapSet (m : List (String × List SecretShare)) (k : String)
    (v : List SecretShare) : List (String × List SecretShare) :=
  if m.any (fun p => p.1 == k) then
    m.map (fun p => if p.1 == k then (k, v) else p)
  else m ++ [(k, v)]

/-- The share-assignment loop of `distributeShares` over index list `idxs`
(the source iterates `i = 0 … clients.length - 1`): skips a falsy (empty)
target id and an out-of-range share, otherwise pushes `shares[i]` onto the
target's list. -/
def assignLoop (clients : List String) (shares : List SecretShare) :
    List ℕ → List (String × List SecretShare) → List (String × List SecretShare)
  | [], dist => dist
  | i :: rest, dist =>
    let target := clients.getD i ""
    assignLoop clients shares rest
      (if target = "" then dist
       else if i < shares.length then
         mapSet dist target (mapGetD dist target ++ [shares.getD i default])
       else dist)

/-- `for (let i = 0; i < clients.length; i++) { … }` of `distributeShares`. -/
def assignShares (clients : List String) (shares : List SecretShare)
    (dist : List (String × List SecretShare)) :
    List (String × List SecretShare) :=
  assignLoop clients shares (List.range clients.length) dist

/-- Outer loop of `distributeShares` over the (position, id) pairs of the
client list: every client other than the caller triggers a fresh
`randomBytes(32)` secret (`rndS p.1`, stored as bytes) and a
`splitSecret` whose thrown errors propagate. -/
def distLoop (clientId : String) (clients : List String)
    (dropoutTolerance : ℕ) (rndS : ℕ → List ℕ) (rndC : ℕ → ℕ → List ℕ) :
    List (ℕ × String) → List (String × List SecretShare) →
    Except String (List (String × List SecretShare))
  | [], dist => Except.ok dist
  | p :: rest, dist =>
    if p.2 = clientId then
      distLoop clientId clients dropoutTolerance rndS rndC rest dist
    else
      match splitSecret ((rndS p.1).map (fun b => b % 256)) clients.length
        (max 1 (clients.length - dropoutTolerance)) (rndC p.1) with
      | Except.error e => Except.error e
      | Except.ok shares =>
        distLoop clientId clients dropoutTolerance rndS rndC rest
          (assignShares clients shares dist)

/-- `distributeShares(clientId, clients, dropoutTolerance)`: one fresh
secret per non-caller client, each split into `clients.length` shares
with threshold `max(1, clients.length - dropoutTolerance)` and assigned
share-by-share to every client in list order. -/
def distributeShares (clientId : String) (clients : List String)
    (dropoutTolerance : ℕ) (rndS : ℕ → List ℕ) (rndC : ℕ → ℕ → List ℕ) :
    Except String (List (String × List SecretShare)) :=
  distLoop clientId clients dropoutTolerance rndS rndC clients.enum []

/-- `SecureAggregationClient.submitVector(vector)`: phase and
re-submission guards, masking, share distribution, then the sends.
`wsOpen` models `this.ws && this.ws.readyState === OPEN`; `sendMessage`
throws `WebSocket not connected` otherwise, before any state mutation
(`submitted`/`phase` are only updated after the sends succeed).
`rndSeed` is the `randomBytes(32)` stored in the message's `maskSeed`
field. -/
def submitVector (sinF : ℤ → ℚ) (dk : List ℕ → List ℕ) (wsOpen : Bool)
    (rndSeed : List ℕ) (rndS : ℕ → List ℕ) (rndC : ℕ → ℕ → List ℕ)
    (dropoutTolerance : ℕ) (st : ClientState) (vector : List ℚ) :
    Except String (ClientState × List ClientMsg) :=
  if st.phase ≠ ProtocolPhase.submission then
    Except.error "Not in submission phase"
  else if st.submitted then
    Except.error "Vector already submitted for this round"
  else
    match applyAllMasks vector
      (generateAllMasks sinF dk vector.length st.sharedSecrets st.roundId st.clientId) with
    | Except.error e => Except.error e
    | Except.ok maskedVector =>
      match distributeShares st.clientId st.peers dropoutTolerance rndS rndC with
      | Except.error e => Except.error e
      | Except.ok dist =>
        if wsOpen then
          Except.ok
            ({ st with submitted := true, phase := ProtocolPhase.aggregation },
              dist.map (fun e => ClientMsg.secretShare st.clientId st.roundId e.2) ++
                [ClientMsg.submitVector st.clientId st.roundId
                  ⟨st.clientId, st.roundId, maskedVector, rndSeed.map (fun b => b % 256)⟩])
        else Except.error "WebSocket not connected"

/-! ## Concrete environment instances used by witnesses and
counterexamples -/

/-- A concrete instantiation of the abstract sine parameter (the claims
quantify over the expansion environment, so a single instance suffices to
exhibit a violation). -/
def sinQ : ℤ → ℚ := fun z => (z : ℚ)

/-- A concrete instantiation of `deriveKey`: the all-zero 32-byte key. -/
def dkZero : List ℕ → List ℕ := fun _ => List.replicate 32 0

/-- A concrete 32-byte shared secret. -/
def secZero : List ℕ := List.replicate 32 0

/-- Concrete per-split coefficient randomness. -/
def rndC0 : ℕ → ℕ → List ℕ := fun _ _ => [0]

/-- Seed computation for the concrete environment: all derived bytes are
zero and `"r".charCodeAt(0) = 114`. -/
theorem seed_r :
    (((dkZero secZero).map (fun b => b % 256)).foldl (fun acc b => acc + b) 0
      + charCodeAt "r" 0) % 2147483648 = 114 := by decide

/-- Concrete mask derived for peer `"B"` in round `"r"`. -/
theorem mask_to_B :
    generatePairwiseMask sinQ dkZero 1 secZero "r" "B" = [180000] := by
  have h1 : charCodes "B" = [66] := by decide
  simp only [generatePairwiseMask, h1, seed_r, maskLoop, sinQ]
  norm_num

/-- Concrete mask derived for peer `"A"` in round `"r"`. -/
theorem mask_to_A :
    generatePairwiseMask sinQ dkZero 1 secZero "r" "A" = [179000] := by
  have h1 : charCodes "A" = [65] := by decide
  simp only [generatePairwiseMask, h1, seed_r, maskLoop, sinQ]
  norm_num

/-! ## Helper lemmas -/

/-- Closed form of a successful `splitSecret`. -/
theorem splitSecret_eq_ok (secret : List ℕ) (n t : ℕ) (rnd : ℕ → List ℕ)
    (h2 : 2 ≤ t) (hn : t ≤ n) :
    splitSecret secret n t rnd = Except.ok ((List.range n).map (fun i =>
      { clientId := shareClientId (i + 1)
        shareIndex := i + 1
        shareData := evalPolyBody secret
          ((List.range (t - 1)).map (fun j => rnd (j + 1))) (i + 1)
        threshold := t })) := by
  simp only [splitSecret, generatePolynomial]
  rw [if_neg (by omega), if_neg (by omega)]

/-- Every share produced by a successful `splitSecret` carries the split's
threshold. -/
theorem splitSecret_thresholds (secret : List ℕ) (n t : ℕ) (rnd : ℕ → List ℕ)
    (shares : List SecretShare) (h : splitSecret secret n t rnd = Except.ok shares) :
    ∀ s ∈ shares, s.threshold = t := by
  by_cases h2 : 2 ≤ t
  · by_cases hn : t ≤ n
    · rw [splitSecret_eq_ok secret n t rnd h2 hn] at h
      cases h
      intro s hs
      simp only [List.mem_map] at hs
      obtain ⟨i, _, rfl⟩ := hs
      rfl
    · simp only [splitSecret] at h
      rw [if_pos (by omega)] at h
      cases h
  · simp only [splitSecret] at h
    rw [if_neg] at h
    · rw [if_pos (by omega)] at h
      cases h
    · by_cases hn : n < t
      · intro _
        rw [if_pos hn] at h
        cases h
      · omega

/-- Any list of shares shorter than the common threshold reconstructs to
`null`. -/
theorem reconstruct_short (shares : List SecretShare) (t : ℕ)
    (hall : ∀ s ∈ shares, s.threshold = t) (hlen : shares.length < t) :
    reconstructSecret shares = none := by
  cases shares with
  | nil => rfl
  | cons f rest =>
    have hf : f.threshold = t := hall f (List.mem_cons_self f rest)
    simp only [reconstructSecret]
    rw [if_pos (by simp only [hf]; exact hlen)]

/-- A `maskLoop` always produces exactly the requested number of entries. -/
theorem maskLoop_length (sinF : ℤ → ℚ) (codes : List ℕ) :
    ∀ count i s, (maskLoop sinF codes count i s).length = count := by
  intro count
  induction count with
  | zero => intro i s; rfl
  | succ k ih => intro i s; simp [maskLoop, ih]

/-- The element-wise sum of two equal-length vectors undoes the
element-wise difference. -/
theorem zip_add_sub (v m : List ℚ) (h : v.length = m.length) :
    List.zipWith (fun a b => a - b) (List.zipWith (fun a b => a + b) v m) m = v := by
  induction v generalizing m with
  | nil => simp
  | cons a va ih =>
    cases m with
    | nil => simp at h
    | cons b mb =>
      simp only [List.zipWith_cons_cons, add_sub_cancel_right, List.cons.injEq, true_and]
      exact ih mb (by simpa using h)

/-! ## Claim theorems -/

/-- C5.  `splitSecret` rejects `t < 2` and `t > n` with the source's
invalid-parameter errors, and the rejection is independent of the
randomness supply (no cryptographic operation is consulted); for
`2 ≤ t ≤ n` it returns exactly `n` shares whose `shareIndex` run through
`1..n`, every share carrying threshold `t`. -/
theorem splitSecret_validation (secret : List ℕ) (n t : ℕ)
    (rnd rnd2 : ℕ → List ℕ) :
    (n < t → splitSecret secret n t rnd =
      Except.error "Threshold cannot be greater than total shares") ∧
    (t ≤ n → t < 2 → splitSecret secret n t rnd =
      Except.error "Threshold must be at least 2") ∧
    ((t < 2 ∨ n < t) → splitSecret secret n t rnd = splitSecret secret n t rnd2) ∧
    (2 ≤ t → t ≤ n → ∃ shares, splitSecret secret n t rnd = Except.ok shares ∧
      shares.length = n ∧
      shares.map SecretShare.shareIndex = (List.range n).map (fun i => i + 1) ∧
      ∀ s ∈ shares, s.threshold = t) := by
  refine ⟨?_, ?_, ?_, ?_⟩
  · intro h
    simp only [splitSecret]
    rw [if_pos (by omega)]
  · intro h1 h2
    simp only [splitSecret]
    rw [if_neg (by omega), if_pos h2]
  · intro h
    by_cases hn : n < t
    · simp only [splitSecret]
      rw [if_pos (by omega), if_pos (by omega)]
    · simp only [splitSecret]
      rw [if_neg (by omega), if_pos (by omega), if_neg (by omega), if_pos (by omega)]
  · intro h2 hn
    refine ⟨_, splitSecret_eq_ok secret n t rnd h2 hn, by simp, ?_, ?_⟩
    · simp only [List.map_map]
      rfl
    · intro s hs
      simp only [List.mem_map] at hs
      obtain ⟨i, _, rfl⟩ := hs
      rfl

/-- Witness for C5: `splitSecret([7], 3, 2)` produces shares `1..3` of
threshold 2. -/
theorem splitSecret_validation_witness :
    2 ≤ 2 ∧ 2 ≤ 3 ∧ ∃ shares, splitSecret [7] 3 2 rnd0 = Except.ok shares ∧
      shares.length = 3 ∧
      shares.map SecretShare.shareIndex = (List.range 3).map (fun i => i + 1) ∧
      ∀ s ∈ shares, s.threshold = 2 :=
  ⟨by decide, by decide,
    (splitSecret_validation [7] 3 2 rnd0 rnd0).2.2.2 (by decide) (by decide)⟩

/-- C4.  Supplying fewer shares than the encoded threshold makes
`reconstructSecret` return `null`; in particular every sublist of a
split's shares that is shorter than the split threshold (such as any
`t - 1`-sized subset) reconstructs to `null`. -/
theorem reconstruct_below_threshold (shares : List SecretShare) (t : ℕ)
    (hall : ∀ s ∈ shares, s.threshold = t) (hlen : shares.length < t) :
    reconstructSecret shares = none ∧
    ∀ (secret : List ℕ) (n : ℕ) (rnd : ℕ → List ℕ)
      (allShares sub : List SecretShare),
      splitSecret secret n t rnd = Except.ok allShares →
      List.Sublist sub allShares → sub.length < t →
      reconstructSecret sub = none := by
  refine ⟨reconstruct_short shares t hall hlen, ?_⟩
  intro secret n rnd allShares sub hsplit hsub hsublen
  refine reconstruct_short sub t ?_ hsublen
  intro s hs
  exact splitSecret_thresholds secret n t rnd allShares hsplit s (hsub.subset hs)

/-- Witness for C4: a single share of threshold 2 reconstructs to `null`. -/
theorem reconstruct_below_threshold_witness :
    (∀ s ∈ [(⟨"share_1", 1, [1], 2⟩ : SecretShare)], s.threshold = 2) ∧
    ([(⟨"share_1", 1, [1], 2⟩ : SecretShare)].length < 2) ∧
    reconstructSecret [(⟨"share_1", 1, [1], 2⟩ : SecretShare)] = none :=
  ⟨by decide, by decide,
    (reconstruct_below_threshold [⟨"share_1", 1, [1], 2⟩] 2
      (by decide) (by decide)).1⟩

/-- C10.  `reconstructSecret` is determined by the first `t` shares of its
input, where `t` is the threshold encoded in the first share: it returns
the same result as on the `t`-element prefix, so later shares and their
encoded thresholds never influence the output. -/
theorem reconstruct_uses_first_t (shares : List SecretShare)
    (first : SecretShare) (hhead : shares.head? = some first)
    (hlen : first.threshold ≤ shares.length) :
    reconstructSecret shares = reconstructSecret (shares.take first.threshold) := by
  cases shares with
  | nil => simp at hhead
  | cons f rest =>
    have hf : f = first := by simpa using hhead
    subst hf
    rcases Nat.eq_zero_or_pos f.threshold with h0 | hpos
    · simp [reconstructSecret, h0]
    · obtain ⟨k, hk⟩ : ∃ k, f.threshold = k + 1 := ⟨f.threshold - 1, by omega⟩
      simp only [reconstructSecret, hk, List.take_succ_cons, List.length_cons,
        List.length_take, List.take_take]
      rw [if_neg (by simp only [List.length_cons] at hlen; omega),
        if_neg (by simp only [List.length_cons] at hlen; omega)]
      simp [Nat.min_self]

/-- Witness for C10: a three-share list with threshold 2 reconstructs like
its two-share prefix. -/
theorem reconstruct_uses_first_t_witness :
    ([(⟨"share_1", 1, [9], 2⟩ : SecretShare), ⟨"share_2", 2, [8], 2⟩,
        ⟨"share_3", 3, [7], 5⟩].head? = some ⟨"share_1", 1, [9], 2⟩) ∧
    ((⟨"share_1", 1, [9], 2⟩ : SecretShare).threshold ≤ 3) ∧
    reconstructSecret [(⟨"share_1", 1, [9], 2⟩ : SecretShare),
        ⟨"share_2", 2, [8], 2⟩, ⟨"share_3", 3, [7], 5⟩] =
      reconstructSecret ([(⟨"share_1", 1, [9], 2⟩ : SecretShare),
        ⟨"share_2", 2, [8], 2⟩, ⟨"share_3", 3, [7], 5⟩].take 2) :=
  ⟨by decide, by decide,
    reconstruct_uses_first_t
      [⟨"share_1", 1, [9], 2⟩, ⟨"share_2", 2, [8], 2⟩, ⟨"share_3", 3, [7], 5⟩]
      ⟨"share_1", 1, [9], 2⟩ (by decide) (by decide)⟩

/-- C9.  `removeMask(applyMask(v, m), m) = v` for equal-length vectors
(exact arithmetic model of the element-wise float operations), and both
operations throw the length-mismatch error exactly when the two argument
lengths differ.  (Result freshness and input immutability are automatic
in the pure embedding: both operations build a new list.) -/
theorem mask_roundtrip (v m a b : List ℚ) (hvm : v.length = m.length)
    (hab : a.length ≠ b.length) :
    (applyMask v m).bind (fun w => removeMask w m) = Except.ok v ∧
    applyMask a b = Except.error "Vector and mask must have the same length" ∧
    removeMask a b = Except.error "Vector and mask must have the same length" ∧
    applyMask v m ≠ Except.error "Vector and mask must have the same length" ∧
    removeMask v m ≠ Except.error "Vector and mask must have the same length" := by
  refine ⟨?_, by simp [applyMask, hab], by simp [removeMask, hab],
    by simp [applyMask, hvm], by simp [removeMask, hvm]⟩
  simp only [applyMask, removeMask, hvm, ne_eq, not_true_eq_false, if_false,
    Except.bind]
  rw [if_neg (by simp [List.length_zipWith, hvm])]
  rw [zip_add_sub v m hvm]

/-- Witness for C9 at `v = [1,2]`, `m = [3,4]`, `a = [5]`, `b = []`. -/
theorem mask_roundtrip_witness :
    ([1, 2] : List ℚ).length = ([3, 4] : List ℚ).length ∧
    ([5] : List ℚ).length ≠ ([] : List ℚ).length ∧
    (applyMask [1, 2] [3, 4]).bind (fun w => removeMask w [3, 4]) =
      Except.ok [1, 2] :=
  ⟨rfl, by decide, (mask_roundtrip [1, 2] [3, 4] [5] [] rfl (by decide)).1⟩

/-- C6 (code bug).  The claim requires over-long mask requests to fail
deterministically; the source's sine/LCG expansion has no output bound
and no failure path at all: for every requested length — in particular
every length beyond any proposed safe bound — `generatePairwiseMask`
returns a mask of exactly that length instead of an error. -/
theorem expansion_never_fails (sinF : ℤ → ℚ) (dk : List ℕ → List ℕ)
    (len : ℕ) (secret : List ℕ) (roundId peerId : String) :
    (generatePairwiseMask sinF dk len secret roundId peerId).length = len := by
  simp [generatePairwiseMask, maskLoop_length]

/-- Reconstruction result of a 2-of-2 split of the secret byte 1 whose
single random coefficient byte is `b`: the (broken) interpolation yields
`(3 + 4*b) mod 256`, which is never 1. -/
theorem recon_2_of_2_bad (b : ℕ) :
    reconstructSecret [⟨shareClientId 1, 1, [(1 + b % 256 * 1) % 256], 2⟩,
        ⟨shareClientId 2, 2, [(1 + b % 256 * 2) % 256], 2⟩] ≠ some [1] := by
  have hinv1 : modInverse 1 256 = 1 := by decide
  have hinvm1 : modInverse (-1) 256 = 1 := by decide
  have htm256 : ∀ x : ℕ, Int.tmod ((x : ℤ)) 256 = (((x % 256 : ℕ)) : ℤ) :=
    fun _ => rfl
  have hemod256 : ∀ x : ℕ, Int.emod ((x : ℤ)) 256 = (((x % 256 : ℕ)) : ℤ) :=
    fun _ => rfl
  simp only [reconstructSecret, lagValue, lagBasis, byteGet, jsMod]
  norm_num [List.range_succ, hinv1, hinvm1]
  simp only [show Int.tmod 2 256 = 2 from by decide,
    show Int.tmod 1 256 = 1 from by decide, mul_one]
  norm_cast
  simp only [htm256]
  norm_cast
  simp only [htm256]
  norm_cast
  simp only [hemod256]
  norm_cast
  omega

/-- C2 (code bug).  Threshold correctness fails: splitting the one-byte
secret `[1]` into 2 shares with threshold 2 and reconstructing from both
shares never returns the secret, whatever bytes the random coefficient
supply produced.  The arithmetic is carried out mod 256 (not in a field)
with a modular inverse that is wrong on negative and even arguments, so
the Lagrange interpolation computes `2*s1 + s2 = (3 + 4*b) mod 256 ≠ 1`
instead of `2*s1 - s2 = 1` — contradicting the repository's own test
`should split and reconstruct secret`. -/
theorem shamir_threshold_broken (rnd : ℕ → List ℕ) :
    ∃ shares, splitSecret [1] 2 2 rnd = Except.ok shares ∧
      reconstructSecret shares ≠ some [1] := by
  refine ⟨_, splitSecret_eq_ok [1] 2 2 rnd (by omega) (by omega), ?_⟩
  have hform : (List.range 2).map (fun i =>
      ({ clientId := shareClientId (i + 1)
         shareIndex := i + 1
         shareData := evalPolyBody [1]
           ((List.range (2 - 1)).map (fun j => rnd (j + 1))) (i + 1)
         threshold := 2 } : SecretShare)) =
      [⟨shareClientId 1, 1, [(1 + ((rnd 1).getD 0 0) % 256 * 1) % 256], 2⟩,
       ⟨shareClientId 2, 2, [(1 + ((rnd 1).getD 0 0) % 256 * 2) % 256], 2⟩] := by
    simp [evalPolyBody, byteGet, xPow, List.range_succ]
  rw [hform]
  exact recon_2_of_2_bad ((rnd 1).getD 0 0)

/-- C3 (code bug).  The two participants of a pair do not derive the same
mask: `generatePairwiseMask` feeds the *peer's* id into the expansion, a
participant-specific input beyond secret and round, so with the same
shared secret and round the two sides obtain different vectors; and
`applyMask` carries no sign convention — both sides add their mask (shown
by the two applications below both being additions onto `[0]`), so the
pair's contributions cannot cancel. -/
theorem pairwise_mask_asymmetric :
    generatePairwiseMask sinQ dkZero 1 secZero "r" "B" ≠
      generatePairwiseMask sinQ dkZero 1 secZero "r" "A" ∧
    applyMask [0] (generatePairwiseMask sinQ dkZero 1 secZero "r" "B") =
      Except.ok [180000] ∧
    applyMask [0] (generatePairwiseMask sinQ dkZero 1 secZero "r" "A") =
      Except.ok [179000] := by
  refine ⟨?_, ?_, ?_⟩
  · rw [mask_to_B, mask_to_A]
    norm_num
  · rw [mask_to_B]
    simp only [applyMask, List.length_cons, List.length_nil, ne_eq,
      List.zipWith_cons_cons, List.zipWith_nil_right]
    norm_num
  · rw [mask_to_A]
    simp only [applyMask, List.length_cons, List.length_nil, ne_eq,
      List.zipWith_cons_cons, List.zipWith_nil_right]
    norm_num

/-- C1 (code bug).  Mask cancellation fails with zero dropouts: two
participants `"A"` and `"B"` holding the *same* pairwise secret both run
`generateAllMasks`/`applyAllMasks` on the private vector `[0]`, yet the
aggregated sum of their masked vectors is `[359000]`, not the true sum
`[0]` — each side adds its own (different) mask, so nothing cancels, as
the source's own `performAggregation` comment ("masks would cancel out")
wrongly assumes. -/
theorem mask_cancellation_fails :
    (applyAllMasks [0] (generateAllMasks sinQ dkZero 1 [("B", secZero)] "r" "A")).bind
      (fun mA =>
        (applyAllMasks [0] (generateAllMasks sinQ dkZero 1 [("A", secZero)] "r" "B")).bind
          (fun mB => aggregateVectors [mA, mB])) = Except.ok [359000] ∧
    (359000 : ℚ) ≠ 0 + 0 := by
  constructor
  · have hA : generateAllMasks sinQ dkZero 1 [("B", secZero)] "r" "A" =
        [("B", [180000])] := by
      simp [generateAllMasks, mask_to_B]
    have hB : generateAllMasks sinQ dkZero 1 [("A", secZero)] "r" "B" =
        [("A", [179000])] := by
      simp [generateAllMasks, mask_to_A]
    rw [hA, hB]
    simp only [applyAllMasks, List.foldlM, applyMask, aggregateVectors,
      addVectors, List.length_cons, List.length_nil, ne_eq,
      List.zipWith_cons_cons, List.zipWith_nil_right]
    norm_num [Except.bind]
  · norm_num

/-- C8 corrected.  `submitVector` is exactly-once, but the error after a
successful submission is the phase error, not the already-submitted
error: a call outside the submission phase fails with
`Not in submission phase`; a call in the submission phase with the
submitted flag already set fails with
`Vector already submitted for this round`; and a successful call sets the
flag, advances the phase to `AGGREGATION`, and thereby makes every
further call (any environment, any vector) fail with the phase error.
Every failing call returns before any message is sent and before any
state mutation. -/
theorem submitVector_exactly_once (sinF : ℤ → ℚ) (dk : List ℕ → List ℕ)
    (wsOpen : Bool) (rndSeed : List ℕ) (rndS : ℕ → List ℕ)
    (rndC : ℕ → ℕ → List ℕ) (d : ℕ) (st : ClientState) (vector : List ℚ) :
    (st.phase ≠ ProtocolPhase.submission →
      submitVector sinF dk wsOpen rndSeed rndS rndC d st vector =
        Except.error "Not in submission phase") ∧
    (st.phase = ProtocolPhase.submission → st.submitted = true →
      submitVector sinF dk wsOpen rndSeed rndS rndC d st vector =
        Except.error "Vector already submitted for this round") ∧
    (∀ st' msgs,
      submitVector sinF dk wsOpen rndSeed rndS rndC d st vector =
        Except.ok (st', msgs) →
      st'.submitted = true ∧ st'.phase = ProtocolPhase.aggregation ∧
      ∀ (sinF' : ℤ → ℚ) (dk' : List ℕ → List ℕ) (wsOpen' : Bool)
        (rndSeed' : List ℕ) (rndS' : ℕ → List ℕ) (rndC' : ℕ → ℕ → List ℕ)
        (d' : ℕ) (v' : List ℚ),
        submitVector sinF' dk' wsOpen' rndSeed' rndS' rndC' d' st' v' =
          Except.error "Not in submission phase") := by
  refine ⟨?_, ?_, ?_⟩
  · intro h
    simp only [submitVector]
    rw [if_pos h]
  · intro h1 h2
    simp only [submitVector]
    rw [if_neg (by simp [h1]), if_pos h2]
  · intro st' msgs h
    simp only [submitVector] at h
    split at h
    · simp at h
    · split at h
      · simp at h
      · split at h
        · simp at h
        · split at h
          · simp at h
          · split at h
            · simp only [Except.ok.injEq, Prod.mk.injEq] at h
              obtain ⟨hst, -⟩ := h
              subst hst
              refine ⟨rfl, rfl, ?_⟩
              intro sinF' dk' wsOpen' rndSeed' rndS' rndC' d' v'
              simp only [submitVector]
              rw [if_pos (by simp)]
            · simp at h

/-- Witness for C8's theorem: a client in the `SETUP` phase gets the
phase error. -/
theorem submitVector_exactly_once_witness :
    ((⟨"A", ProtocolPhase.setup, "r", [], [], [], false⟩ : ClientState).phase ≠
      ProtocolPhase.submission) ∧
    submitVector sinQ dkZero true [0] rnd0 rndC0 0
      ⟨"A", ProtocolPhase.setup, "r", [], [], [], false⟩ [1] =
      Except.error "Not in submission phase" :=
  ⟨by decide,
    (submitVector_exactly_once sinQ dkZero true [0] rnd0 rndC0 0
      ⟨"A", ProtocolPhase.setup, "r", [], [], [], false⟩ [1]).1 (by decide)⟩

/-- Counterexample for C8 as stated: after one successful submission the
next call fails with the *phase* error, because the success already moved
the phase to `AGGREGATION`; it does not fail with the already-submitted
error the claim names. -/
theorem submitVector_resubmit_not_already_submitted :
    submitVector sinQ dkZero true [0] rnd0 rndC0 0
      ⟨"A", ProtocolPhase.submission, "r", [], [], [], false⟩ [1] =
      Except.ok (⟨"A", ProtocolPhase.aggregation, "r", [], [], [], true⟩,
        [ClientMsg.submitVector "A" "r" ⟨"A", "r", [1], [0]⟩]) ∧
    submitVector sinQ dkZero true [0] rnd0 rndC0 0
      ⟨"A", ProtocolPhase.aggregation, "r", [], [], [], true⟩ [1] =
      Except.error "Not in submission phase" ∧
    Except.error "Not in submission phase" ≠
      (Except.error "Vector already submitted for this round" :
        Except String (ClientState × List ClientMsg)) := by
  refine ⟨by decide, by decide, by decide⟩

/-- Updating key `k` makes its lookup return the new value. -/
theorem mapGetD_mapSet_self (m : List (String × List SecretShare))
    (k : String) (v : List SecretShare) : mapGetD (mapSet m k v) k = v := by
  unfold mapGetD mapSet
  by_cases hany : m.any (fun p => p.1 == k)
  · rw [if_pos hany]
    induction m with
    | nil => simp at hany
    | cons p rest ih =>
      by_cases hp : p.1 == k
      · simp [List.find?, hp]
      · have hpf : (p.1 == k) = false := by simpa using hp
        have hrest : rest.any (fun p => p.1 == k) = true := by
          simpa [hpf] using hany
        simp only [List.map_cons, hpf, Bool.false_eq_true, if_false,
          List.find?, hpf]
        exact ih hrest
  · rw [if_neg hany]
    have hnone : m.find? (fun p => p.1 == k) = none := by
      rw [List.find?_eq_none]
      intro x hx hpx
      exact hany (List.any_eq_true.mpr ⟨x, hx, hpx⟩)
    rw [List.find?_append, hnone]
    simp [List.find?]

/-- Updating key `k` leaves the lookup of any other key unchanged. -/
theorem mapGetD_mapSet_ne (m : List (String × List SecretShare))
    (k k' : String) (v : List SecretShare) (h : k ≠ k') :
    mapGetD (mapSet m k v) k' = mapGetD m k' := by
  have hkk : (k == k') = false := by simpa using h
  unfold mapGetD mapSet
  by_cases hany : m.any (fun p => p.1 == k)
  · rw [if_pos hany]
    clear hany
    induction m with
    | nil => rfl
    | cons p rest ih =>
      by_cases hp : p.1 == k
      · have hpk : p.1 = k := by simpa using hp
        have hpk' : (p.1 == k') = false := by simp [hpk, hkk]
        simp only [List.map_cons, hp, if_true, List.find?, hkk, hpk']
        exact ih
      · have hpf : (p.1 == k) = false := by simpa using hp
        by_cases hp' : p.1 == k'
        · simp [List.find?, hpf, hp']
        · have hpf' : (p.1 == k') = false := by simpa using hp'
          simp only [List.map_cons, hpf, Bool.false_eq_true, if_false,
            List.find?, hpf']
          exact ih
  · rw [if_neg hany, List.find?_append]
    have h1 : List.find? (fun p => p.1 == k') [(k, v)] = none := by
      simp [List.find?, hkk]
    rw [h1]
    cases m.find? (fun p => p.1 == k') <;> rfl

/-- Distinct positions of a duplicate-free list hold distinct values. -/
theorem getD_ne_of_nodup (clients : List String) (hnd : clients.Nodup)
    (i j : ℕ) (hi : i < clients.length) (hj : j < clients.length)
    (hij : i ≠ j) : clients.getD i "" ≠ clients.getD j "" := by
  rw [List.getD_eq_getElem _ _ hi, List.getD_eq_getElem _ _ hj]
  intro h
  have := (hnd.get_inj_iff (i := ⟨i, hi⟩) (j := ⟨j, hj⟩)).mp (by simpa using h)
  exact hij (by simpa using this)

/-- `List.range n` filtered to a single index `i0 < n` is `[i0]`. -/
theorem range_filter_eq (n i0 : ℕ) (h : i0 < n) :
    (List.range n).filter (fun j => j == i0) = [i0] := by
  induction n with
  | zero => omega
  | succ k ih =>
    rw [List.range_succ, List.filter_append]
    by_cases hk : i0 = k
    · subst hk
      have h1 : (List.range i0).filter (fun j => j == i0) = [] := by
        rw [List.filter_eq_nil_iff]
        intro a ha
        simp only [List.mem_range] at ha
        simp
        omega
      rw [h1]
      simp
    · rw [ih (by omega)]
      have h2 : [k].filter (fun j => j == i0) = [] := by
        simp
        omega
      rw [h2]
      simp

/-- Effect of the share-assignment loop on the lookup of the target at
position `i0`: one share, `shares[j]`, is appended for every processed
index `j` equal to `i0` (with a duplicate-free client list the target
occurs at no other index). -/
theorem assignLoop_getD (clients : List String) (shares : List SecretShare)
    (i0 : ℕ) (hi0 : i0 < clients.length) (htne : clients.getD i0 "" ≠ "")
    (hnd : clients.Nodup) (hsl : shares.length = clients.length) :
    ∀ (idxs : List ℕ) (dist : List (String × List SecretShare)),
      (∀ j ∈ idxs, j < clients.length) →
      mapGetD (assignLoop clients shares idxs dist) (clients.getD i0 "") =
        mapGetD dist (clients.getD i0 "") ++
          (idxs.filter (fun j => j == i0)).map (fun j => shares.getD j default) := by
  intro idxs
  induction idxs with
  | nil => intro dist _; simp [assignLoop]
  | cons j rest ih =>
    intro dist hall
    have hjlt : j < clients.length := hall j (List.mem_cons_self j rest)
    simp only [assignLoop]
    by_cases hj : j = i0
    · subst hj
      rw [if_neg htne, if_pos (by omega)]
      rw [ih _ (fun x hx => hall x (List.mem_cons_of_mem j hx))]
      rw [mapGetD_mapSet_self]
      simp [List.filter_cons]
    · have hfil : (j :: rest).filter (fun x => x == i0) =
          rest.filter (fun x => x == i0) := by
        simp [List.filter_cons]
        omega
      rw [hfil]
      by_cases hjz : clients.getD j "" = ""
      · rw [if_pos hjz]
        exact ih _ (fun x hx => hall x (List.mem_cons_of_mem j hx))
      · rw [if_neg hjz, if_pos (by omega)]
        rw [ih _ (fun x hx => hall x (List.mem_cons_of_mem j hx))]
        rw [mapGetD_mapSet_ne _ _ _ _
          (getD_ne_of_nodup clients hnd j i0 hjlt hi0 hj)]

/-- The share at position `j < n` of a successful `n`-share split has
share index `j + 1` and the split's threshold. -/
theorem split_share_at (secret : List ℕ) (n t : ℕ) (rnd : ℕ → List ℕ)
    (j : ℕ) (hj : j < n) :
    (((List.range n).map (fun i =>
      ({ clientId := shareClientId (i + 1)
         shareIndex := i + 1
         shareData := evalPolyBody secret
           ((List.range (t - 1)).map (fun jj => rnd (jj + 1))) (i + 1)
         threshold := t } : SecretShare))).getD j default).shareIndex = j + 1 ∧
    (((List.range n).map (fun i =>
      ({ clientId := shareClientId (i + 1)
         shareIndex := i + 1
         shareData := evalPolyBody secret
           ((List.range (t - 1)).map (fun jj => rnd (jj + 1))) (i + 1)
         threshold := t } : SecretShare))).getD j default).threshold = t := by
  rw [List.getD_eq_getElem _ _ (by simpa using hj)]
  simp

/-- Effect of the outer `distributeShares` loop on the lookup of the
target at position `i0`: each processed pair whose id differs from the
caller appends exactly one share, carrying the split threshold
`clients.length - d` and share index `i0 + 1`. -/
theorem distLoop_getD (clientId : String) (clients : List String) (d : ℕ)
    (rndS : ℕ → List ℕ) (rndC : ℕ → ℕ → List ℕ) (i0 : ℕ)
    (hi0 : i0 < clients.length) (htne : clients.getD i0 "" ≠ "")
    (hnd : clients.Nodup) (ht2 : 2 ≤ clients.length - d) :
    ∀ (pairs : List (ℕ × String)) (dist : List (String × List SecretShare)),
      ∃ res, distLoop clientId clients d rndS rndC pairs dist = Except.ok res ∧
        ∃ added, mapGetD res (clients.getD i0 "") =
            mapGetD dist (clients.getD i0 "") ++ added ∧
          added.length = (pairs.filter (fun p => p.2 ≠ clientId)).length ∧
          ∀ s ∈ added, s.threshold = clients.length - d ∧
            s.shareIndex = i0 + 1 := by
  have hmax : max 1 (clients.length - d) = clients.length - d := by omega
  intro pairs
  induction pairs with
  | nil =>
    intro dist
    exact ⟨dist, rfl, [], by simp, by simp, by simp⟩
  | cons p rest ih =>
    intro dist
    by_cases hp : p.2 = clientId
    · obtain ⟨res, hres, added, hadd, hlen, hprop⟩ := ih dist
      refine ⟨res, ?_, added, hadd, ?_, hprop⟩
      · simp only [distLoop]
        rw [if_pos hp]
        exact hres
      · rw [hlen]
        simp [List.filter_cons, hp]
    · have hsplit := splitSecret_eq_ok ((rndS p.1).map (fun b => b % 256))
        clients.length (max 1 (clients.length - d)) (rndC p.1)
        (by omega) (by omega)
      set shares := (List.range clients.length).map (fun i =>
        ({ clientId := shareClientId (i + 1)
           shareIndex := i + 1
           shareData := evalPolyBody ((rndS p.1).map (fun b => b % 256))
             ((List.range (max 1 (clients.length - d) - 1)).map
               (fun jj => rndC p.1 (jj + 1))) (i + 1)
           threshold := max 1 (clients.length - d) } : SecretShare))
        with hshares
      obtain ⟨res, hres, added, hadd, hlen, hprop⟩ :=
        ih (assignShares clients shares dist)
      have hassign := assignLoop_getD clients shares i0 hi0 htne hnd
        (by simp [hshares]) (List.range clients.length) dist
        (fun j hj => List.mem_range.mp hj)
      rw [range_filter_eq clients.length i0 hi0] at hassign
      refine ⟨res, ?_, shares.getD i0 default :: added, ?_, ?_, ?_⟩
      · simp only [distLoop]
        rw [if_neg hp, hsplit]
        exact hres
      · rw [hadd]
        have hassign2 : mapGetD (assignShares clients shares dist)
            (clients.getD i0 "") = mapGetD dist (clients.getD i0 "") ++
              List.map (fun j => shares.getD j default) [i0] := by
          unfold assignShares
          exact hassign
        rw [hassign2]
        simp
      · simp only [List.length_cons, hlen, List.filter_cons]
        simp [hp]
      · intro s hs
        rcases List.mem_cons.mp hs with hs1 | hs2
        · subst hs1
          have := split_share_at ((rndS p.1).map (fun b => b % 256))
            clients.length (max 1 (clients.length - d)) (rndC p.1) i0 hi0
          rw [← hshares] at this
          exact ⟨by rw [this.2, hmax], this.1⟩
        · exact hprop s hs2

/-- The positions-with-id pairs of `enum` filter on the id exactly like
the underlying list. -/
theorem enumFrom_filter_snd_length (clientId : String) :
    ∀ (l : List String) (k : ℕ),
      ((List.enumFrom k l).filter (fun p => p.2 ≠ clientId)).length =
        (l.filter (fun c => c ≠ clientId)).length := by
  intro l
  induction l with
  | nil => intro k; rfl
  | cons a rest ih =>
    intro k
    rw [List.enumFrom_cons]
    have ih2 := ih (k + 1)
    simp only [List.filter_cons, decide_not] at ih2 ⊢
    by_cases ha : a = clientId
    · simp [ha, ih2]
    · simp [ha, ih2]

/-- Under a workable configuration the outer loop never throws. -/
theorem distLoop_ok (clientId : String) (clients : List String) (d : ℕ)
    (rndS : ℕ → List ℕ) (rndC : ℕ → ℕ → List ℕ)
    (ht : 2 ≤ clients.length - d) :
    ∀ (pairs : List (ℕ × String)) (dist : List (String × List SecretShare)),
      ∃ res, distLoop clientId clients d rndS rndC pairs dist =
        Except.ok res := by
  intro pairs
  induction pairs with
  | nil => intro dist; exact ⟨dist, rfl⟩
  | cons p rest ih =>
    intro dist
    by_cases hp : p.2 = clientId
    · obtain ⟨res, hres⟩ := ih dist
      refine ⟨res, ?_⟩
      simp only [distLoop]
      rw [if_pos hp]
      exact hres
    · have hsplit := splitSecret_eq_ok ((rndS p.1).map (fun b => b % 256))
        clients.length (max 1 (clients.length - d)) (rndC p.1)
        (by omega) (by omega)
      obtain ⟨res, hres⟩ := ih (assignShares clients
        ((List.range clients.length).map (fun i =>
          ({ clientId := shareClientId (i + 1)
             shareIndex := i + 1
             shareData := evalPolyBody ((rndS p.1).map (fun b => b % 256))
               ((List.range (max 1 (clients.length - d) - 1)).map
                 (fun jj => rndC p.1 (jj + 1))) (i + 1)
             threshold := max 1 (clients.length - d) } : SecretShare))) dist)
      refine ⟨res, ?_⟩
      simp only [distLoop]
      rw [if_neg hp, hsplit]
      exact hres

/-- C7 corrected.  On every submission with a duplicate-free peer list of
length `n` and `2 ≤ n - dropoutTolerance`, `distributeShares` succeeds
and generates one fresh random secret *per peer other than the caller*
(not a single secret, and unrelated to the masking seed), splits each
into `n` shares with threshold `n - dropoutTolerance`, and assigns within
each split exactly one share — the one at the receiver's position, with
share index `position + 1` — to *every* client in the list (the caller
included): so each peer accumulates one share per generated secret,
`(number of non-caller peers)` shares in total, not exactly one. -/
theorem distributeShares_spec (clientId : String) (clients : List String)
    (d : ℕ) (rndS : ℕ → List ℕ) (rndC : ℕ → ℕ → List ℕ)
    (hnd : clients.Nodup) (ht : 2 ≤ clients.length - d) :
    ∃ dist, distributeShares clientId clients d rndS rndC = Except.ok dist ∧
      ∀ i, i < clients.length → clients.getD i "" ≠ "" →
        (mapGetD dist (clients.getD i "")).length =
          (clients.filter (fun c => c ≠ clientId)).length ∧
        ∀ s ∈ mapGetD dist (clients.getD i ""),
          s.threshold = clients.length - d ∧ s.shareIndex = i + 1 := by
  obtain ⟨dist, hdist⟩ :=
    distLoop_ok clientId clients d rndS rndC ht clients.enum []
  refine ⟨dist, hdist, ?_⟩
  intro i hi hne
  obtain ⟨res, hres, added, hadd, hlen, hprop⟩ :=
    distLoop_getD clientId clients d rndS rndC i hi hne hnd ht
      clients.enum []
  have hrd : res = dist := by
    rw [hres] at hdist
    exact (Except.ok.injEq _ _).mp hdist
  subst hrd
  have hempty : mapGetD [] (clients.getD i "") = [] := rfl
  rw [hempty, List.nil_append] at hadd
  rw [hadd]
  refine ⟨?_, hprop⟩
  rw [hlen]
  have := enumFrom_filter_snd_length clientId clients 0
  simpa [List.enum] using this

/-- Witness for C7's (corrected) theorem at three clients and zero
dropout tolerance. -/
theorem distributeShares_spec_witness :
    (["A", "B", "C"] : List String).Nodup ∧
    2 ≤ (["A", "B", "C"] : List String).length - 0 ∧
    (∃ dist, distributeShares "A" ["A", "B", "C"] 0 rnd0 rndC0 =
        Except.ok dist ∧
      ∀ i, i < (["A", "B", "C"] : List String).length →
        (["A", "B", "C"] : List String).getD i "" ≠ "" →
        (mapGetD dist ((["A", "B", "C"] : List String).getD i "")).length =
          ((["A", "B", "C"] : List String).filter (fun c => c ≠ "A")).length ∧
        ∀ s ∈ mapGetD dist ((["A", "B", "C"] : List String).getD i ""),
          s.threshold = (["A", "B", "C"] : List String).length - 0 ∧
          s.shareIndex = i + 1) :=
  ⟨by decide, by decide,
    distributeShares_spec "A" ["A", "B", "C"] 0 rnd0 rndC0
      (by decide) (by decide)⟩

/-- Counterexample for C7 as stated: with caller `"A"`, peers
`["A","B","C"]` and dropout tolerance 0, peer `"B"` receives two shares
from a single submission, not exactly one. -/
theorem distributeShares_not_one_each :
    (distributeShares "A" ["A", "B", "C"] 0 rnd0 rndC0).map
      (fun dist => (mapGetD dist "B").length) = Except.ok 2 ∧ (2 : ℕ) ≠ 1 :=
  ⟨by decide, by decide⟩
